import Mathlib

/-!
Verification of the nearcore fragment: the trie-prefetch staging area
(`core/store/src/trie/prefetching_trie_storage.rs`) and the validator
accounts-data cache (`chain/network/src/accounts_data/mod.rs`).

The Rust code is shallowly embedded: content hashes, public keys and
timestamps become `Nat`; byte buffers become `List Nat`; the staging-area
hash map becomes an association list manipulated with first-occurrence
lookup/replace/remove (faithful to a unique-key `HashMap`); the snapshot
maps of the accounts-data cache become functions `Nat → Option _`.
`usize` arithmetic is modelled by `Nat`; the subtractions in
`insert_fetched`/`release` never underflow along sequences that respect the
code's own debug-checked preconditions (nearcore compiles with overflow
checks, so an underflow would abort the operation rather than produce an
observable state).
-/

set_option autoImplicit false

namespace NearCore

/-- First-occurrence lookup in an association list keyed by `Nat`
(models `HashMap::get`). -/
def lookupA {α : Type} : List (Nat × α) → Nat → Option α
  | [], _ => none
  | (k, v) :: rest, h => if k = h then some v else lookupA rest h

/-- Replace the first binding of `h` (or append a new one): models
`HashMap::insert` / `Entry::insert` on a unique-key map. -/
def setA {α : Type} : List (Nat × α) → Nat → α → List (Nat × α)
  | [], h, v => [(h, v)]
  | (k, w) :: rest, h, v =>
    if k = h then (h, v) :: rest else (k, w) :: setA rest h v

/-- Remove the first binding of `h`: models `HashMap::remove` on a
unique-key map. -/
def removeA {α : Type} : List (Nat × α) → Nat → List (Nat × α)
  | [], _ => []
  | (k, w) :: rest, h =>
    if k = h then rest else (k, w) :: removeA rest h

namespace Prefetch

/-- 32-byte trie-node content hash, modelled as `Nat`. -/
abbrev CryptoHash := Nat

/-- A byte buffer (`Arc<[u8]>`), modelled as a list of bytes. -/
abbrev Bytes := List Nat

/-- `MAX_PREFETCH_STAGING_MEMORY = 200 * 1024 * 1024` (200 MiB). -/
def MAX_PREFETCH_STAGING_MEMORY : Nat := 200 * 1024 * 1024

/-- `PREFETCH_RESERVED_BYTES_PER_SLOT = 4 * 1024 * 1024` (4 MiB). -/
def PREFETCH_RESERVED_BYTES_PER_SLOT : Nat := 4 * 1024 * 1024

/-- `enum PrefetchSlot` from the source. -/
inductive PrefetchSlot where
  | pendingPrefetch
  | pendingFetch
  | done (value : Bytes)
deriving DecidableEq, Repr

/-- `struct InnerPrefetchStagingArea { slots, size_bytes }`. -/
structure InnerPrefetchStagingArea where
  slots : List (CryptoHash × PrefetchSlot)
  size_bytes : Nat
deriving DecidableEq, Repr

/-- The `Default` staging area: empty slots, zero bytes. -/
def emptyStaging : InnerPrefetchStagingArea := { slots := [], size_bytes := 0 }

/-- `enum PrefetcherResult` from the source. -/
inductive PrefetcherResult where
  | slotReserved
  | pending
  | prefetched (value : Bytes)
  | memoryLimitReached
deriving DecidableEq, Repr

/-- `PrefetchStagingArea::get_and_set_if_empty`: return a prefetched value
if available, otherwise atomically install `set_if_empty` if no request is
pending yet and the memory limit allows a reservation. -/
def get_and_set_if_empty (st : InnerPrefetchStagingArea) (key : CryptoHash)
    (set_if_empty : PrefetchSlot) : PrefetcherResult × InnerPrefetchStagingArea :=
  match lookupA st.slots key with
  | some (.done value) => (.prefetched value, st)
  | some .pendingPrefetch => (.pending, st)
  | some .pendingFetch => (.pending, st)
  | none =>
    if st.size_bytes > MAX_PREFETCH_STAGING_MEMORY - PREFETCH_RESERVED_BYTES_PER_SLOT then
      (.memoryLimitReached, st)
    else
      (.slotReserved,
        { slots := setA st.slots key set_if_empty,
          size_bytes := st.size_bytes + PREFETCH_RESERVED_BYTES_PER_SLOT })

/-- `PrefetchStagingArea::get_or_set_fetching`. -/
def get_or_set_fetching (st : InnerPrefetchStagingArea) (key : CryptoHash) :
    PrefetcherResult × InnerPrefetchStagingArea :=
  get_and_set_if_empty st key .pendingFetch

/-- `PrefetchStagingArea::insert_fetched`: subtract the reservation
quantum, add the value's length, and store the slot as `Done`. -/
def insert_fetched (st : InnerPrefetchStagingArea) (key : CryptoHash)
    (value : Bytes) : InnerPrefetchStagingArea :=
  { slots := setA st.slots key (.done value),
    size_bytes := st.size_bytes - PREFETCH_RESERVED_BYTES_PER_SLOT + value.length }

/-- `PrefetchStagingArea::release`: remove the slot and subtract its
charge for `Done` (its length) and `PendingFetch` (the quantum); an absent
slot is a no-op, and a `PendingPrefetch` slot is only logged as a bug and
its charge is not subtracted. -/
def release (st : InnerPrefetchStagingArea) (key : CryptoHash) :
    InnerPrefetchStagingArea :=
  { slots := removeA st.slots key,
    size_bytes :=
      match lookupA st.slots key with
      | some (.done value) => st.size_bytes - value.length
      | some .pendingFetch => st.size_bytes - PREFETCH_RESERVED_BYTES_PER_SLOT
      | none => st.size_bytes
      | some .pendingPrefetch => st.size_bytes }

/-- Result of a backing-store read (`Store::get(DBCol::State, key)`):
found bytes, missing record, or I/O error. -/
inductive StoreRes where
  | ok (value : Bytes)
  | missing
  | ioError
deriving DecidableEq, Repr

/-- `StorageError` outcomes of `TriePrefetchingStorage::retrieve_raw_bytes`,
plus `blocked` for the case where the sequential model would spin in
`blocking_get` on a slot that stays pending (in the real code another
thread eventually fills or removes it). -/
inductive FetchOutcome where
  | ok (value : Bytes)
  | storageInternalError
  | storageInconsistentState (reason : String)
  | blocked
deriving DecidableEq, Repr

/-- `TriePrefetchingStorage::retrieve_raw_bytes`, sequential embedding.
The shard cache and the backing store are passed as read-only functions
(the prefetcher never writes to either). The `pending` arm inlines
`blocking_get` evaluated against the unchanged state: a `Done` slot
returns its bytes, an absent slot falls back to one shard-cache re-check,
and a still-pending slot is reported as `blocked`. -/
def retrieve_raw_bytes (shard_cache : CryptoHash → Option Bytes)
    (store : CryptoHash → StoreRes) (st : InnerPrefetchStagingArea)
    (hash : CryptoHash) : FetchOutcome × InnerPrefetchStagingArea :=
  match shard_cache hash with
  | some val => (.ok val, st)
  | none =>
    match get_and_set_if_empty st hash .pendingPrefetch with
    | (.slotReserved, st1) =>
      match store hash with
      | .ioError => (.storageInternalError, st1)
      | .missing => (.storageInconsistentState "Trie node missing", st1)
      | .ok value => (.ok value, insert_fetched st1 hash value)
    | (.prefetched value, st1) => (.ok value, st1)
    | (.pending, st1) =>
      match lookupA st1.slots hash with
      | some (.done value) => (.ok value, st1)
      | some .pendingPrefetch => (.blocked, st1)
      | some .pendingFetch => (.blocked, st1)
      | none =>
        match shard_cache hash with
        | some val => (.ok val, st1)
        | none => (.storageInconsistentState "Prefetcher failed", st1)
    | (.memoryLimitReached, st1) =>
      (.storageInconsistentState "Prefetcher failed", st1)

/-- The memory charge accounted for a slot: pending slots are charged the
reservation quantum, a `Done` slot its byte length. -/
def charge : PrefetchSlot → Nat
  | .pendingPrefetch => PREFETCH_RESERVED_BYTES_PER_SLOT
  | .pendingFetch => PREFETCH_RESERVED_BYTES_PER_SLOT
  | .done value => value.length

/-- Sum of the charges of all slots in the table. -/
def sumCharge (slots : List (CryptoHash × PrefetchSlot)) : Nat :=
  (slots.map (fun p => charge p.2)).sum

/-- The two slot kinds actually passed to `get_and_set_if_empty` by its
two call sites (`retrieve_raw_bytes` and `get_or_set_fetching`). -/
inductive ReserveKind where
  | prefetch
  | fetch
deriving DecidableEq, Repr

/-- The slot installed for each reservation kind. -/
def ReserveKind.toSlot : ReserveKind → PrefetchSlot
  | .prefetch => .pendingPrefetch
  | .fetch => .pendingFetch

/-- One staging-area operation, for reasoning about operation sequences. -/
inductive StagingOp where
  | reserve (key : CryptoHash) (kind : ReserveKind)
  | insertFetched (key : CryptoHash) (value : Bytes)
  | releaseOp (key : CryptoHash)
deriving DecidableEq, Repr

/-- Apply one staging-area operation to the state. -/
def stagingStep (st : InnerPrefetchStagingArea) : StagingOp → InnerPrefetchStagingArea
  | .reserve key kind => (get_and_set_if_empty st key kind.toSlot).2
  | .insertFetched key value => insert_fetched st key value
  | .releaseOp key => release st key

/-- Run a sequence of staging-area operations. -/
def runStaging (st : InnerPrefetchStagingArea) (ops : List StagingOp) :
    InnerPrefetchStagingArea :=
  ops.foldl stagingStep st

/-- The debug-checked precondition of each operation in the source:
`insert_fetched` requires the slot to be `PendingPrefetch`, `release`
requires it not to be `PendingPrefetch` (absent, `Done` or `PendingFetch`),
and `get_and_set_if_empty` is unconditional. -/
def legalOp (st : InnerPrefetchStagingArea) : StagingOp → Bool
  | .reserve _ _ => true
  | .insertFetched key _ =>
    lookupA st.slots key == some PrefetchSlot.pendingPrefetch
  | .releaseOp key =>
    !(lookupA st.slots key == some PrefetchSlot.pendingPrefetch)

/-- A sequence of operations each of which respects its debug-checked
precondition in the state where it runs. -/
def Legal : InnerPrefetchStagingArea → List StagingOp → Prop
  | _, [] => True
  | st, op :: ops => legalOp st op = true ∧ Legal (stagingStep st op) ops

/-- An operation that supplies at most the reservation quantum of bytes
(vacuously true for the non-`insert_fetched` operations). -/
def smallOp : StagingOp → Bool
  | .insertFetched _ value =>
    value.length ≤ PREFETCH_RESERVED_BYTES_PER_SLOT
  | _ => true

/-- All `insert_fetched` operations of the sequence supply at most
`PREFETCH_RESERVED_BYTES_PER_SLOT` bytes (the storage-value cap). -/
abbrev SmallInserts (ops : List StagingOp) : Prop :=
  ops.all smallOp = true

/-- The accounting invariant: `size_bytes` equals the summed charge. -/
def ChargeInv (st : InnerPrefetchStagingArea) : Prop :=
  st.size_bytes = sumCharge st.slots

end Prefetch

namespace AccountsData

/-- A validator account key (`near_crypto::PublicKey`), modelled as `Nat`. -/
abbrev PublicKey := Nat

/-- An account id, modelled as `Nat`. -/
abbrev AccountId := Nat

/-- The unsigned contents of an `AccountData` record (peer id, proxies,
account id, ...), opaque to the cache, modelled as `Nat`. -/
abbrev AccountDataBody := Nat

/-- A UTC timestamp (`clock.now_utc()`), modelled as `Nat`. -/
abbrev Timestamp := Nat

/-- `VersionedAccountData { data, account_key, version, timestamp }`. -/
structure VersionedAccountData where
  data : AccountDataBody
  account_key : PublicKey
  version : Nat
  timestamp : Timestamp
deriving DecidableEq, Repr

/-- `SignedAccountData`: the versioned contents together with the length
of the encoded payload blob and the key whose secret produced the payload
signature (an honest signature has `signed_with = account_key`; a forged
one has not). -/
structure SignedAccountData where
  data : AccountDataBody
  account_key : PublicKey
  version : Nat
  timestamp : Timestamp
  payload_len : Nat
  signed_with : PublicKey
deriving DecidableEq, Repr

/-- `VersionedAccountData::sign(signer)`: produce a `SignedAccountData`
carrying the same fields, a signature by `signer`, and a payload whose
byte length is given by the (abstract) canonical encoding length
`encLen`. -/
def sign (encLen : VersionedAccountData → Nat) (signer : PublicKey)
    (v : VersionedAccountData) : SignedAccountData :=
  { data := v.data, account_key := v.account_key, version := v.version,
    timestamp := v.timestamp, payload_len := encLen v,
    signed_with := signer }

/-- `d.payload().verify(&d.account_key)`: the signature verifies exactly
when the payload was signed with the secret key of `d.account_key`. -/
def sigValid (d : SignedAccountData) : Bool :=
  d.signed_with == d.account_key

/-- `LocalData { signer, data }`; the signer capability is identified by
its public key. -/
structure LocalData where
  signer : PublicKey
  data : AccountDataBody
deriving DecidableEq, Repr

/-- `AccountKeys = HashMap<AccountId, HashSet<PublicKey>>`, as an
association list. -/
abbrev AccountKeys := List (AccountId × List PublicKey)

/-- An `Arc<AccountKeys>`: the heap address (`ptr`) plus the pointed-to
value. Rust's `==` on `Arc<AccountKeys>` compares the pointed-to values
(pointer equality is only a short-circuit for the equal case). -/
structure ArcAccountKeys where
  ptr : Nat
  val : AccountKeys
deriving DecidableEq, Repr

/-- `CacheSnapshot { keys_by_id, keys, data, local }`; `data` is the map
from account key to the latest signed data, `localData` is the `local`
field (renamed: `local` is reserved in Lean). -/
structure CacheSnapshot where
  keys_by_id : ArcAccountKeys
  keys : List PublicKey
  data : PublicKey → Option SignedAccountData
  localData : Option LocalData

/-- Insert into the `data` map of a snapshot. -/
def mapInsert (m : PublicKey → Option SignedAccountData) (k : PublicKey)
    (v : SignedAccountData) : PublicKey → Option SignedAccountData :=
  fun k' => if k' = k then some v else m k'

/-- `CacheSnapshot::is_new`: `d.account_key` is an interesting key and
`d.version` is strictly newer than any stored version for that key. -/
def is_new (s : CacheSnapshot) (d : SignedAccountData) : Bool :=
  s.keys.contains d.account_key &&
    match s.data d.account_key with
    | some old => if old.version ≥ d.version then false else true
    | none => true

/-- The `match &self.local` step of `try_insert`: if `d` would override
the local record, rebuild from the local data at `version = d.version + 1`
with the current time and sign it locally; otherwise keep `d`. -/
def overrideLocal (encLen : VersionedAccountData → Nat) (clock : Timestamp)
    (localData : Option LocalData) (d : SignedAccountData) :
    SignedAccountData :=
  match localData with
  | some l =>
    if d.account_key = l.signer then
      sign encLen l.signer
        { data := l.data, account_key := l.signer,
          version := d.version + 1, timestamp := clock }
    else d
  | none => d

/-- `CacheSnapshot::try_insert`: insert `d` if it is new; if `d` would
override the local record, rebuild from `localData` at
`version = d.version + 1` with the current time, sign it locally and
insert that instead. Returns the inserted value (for rebroadcast) and the
updated snapshot. -/
def try_insert (encLen : VersionedAccountData → Nat) (s : CacheSnapshot)
    (clock : Timestamp) (d : SignedAccountData) :
    Option SignedAccountData × CacheSnapshot :=
  if !is_new s d then (none, s)
  else
    let d' := overrideLocal encLen clock s.localData d
    (some d', { s with data := mapInsert s.data d'.account_key d' })

/-- `CacheSnapshot::set_local`: store the local signer unconditionally;
if its key is interesting, also sign and insert a fresh record at
`(stored version or 0) + 1`. -/
def set_local (encLen : VersionedAccountData → Nat) (s : CacheSnapshot)
    (clock : Timestamp) (l : LocalData) :
    Option SignedAccountData × CacheSnapshot :=
  let account_key := l.signer
  if s.keys.contains account_key then
    let d := sign encLen l.signer
      { data := l.data, account_key := account_key,
        version := (match s.data account_key with
          | some old => old.version
          | none => 0) + 1,
        timestamp := clock }
    (some d,
      { s with data := mapInsert s.data account_key d, localData := some l })
  else (none, { s with localData := some l })

/-- The flat key set recomputed by `set_keys`:
`keys_by_id.values().flatten()`. -/
def flatKeys (m : AccountKeys) : List PublicKey :=
  (m.map (fun p => p.2)).flatten

/-- `Cache::set_keys`: abort returning `false` if the new `keys_by_id`
equals the stored one (Rust `Arc` equality compares the values);
otherwise recompute `keys`, retain only still-interesting `data` entries,
and return `true`. -/
def set_keys (s : CacheSnapshot) (keys_by_id : ArcAccountKeys) :
    Bool × CacheSnapshot :=
  if keys_by_id.val = s.keys_by_id.val then (false, s)
  else
    let keys := flatKeys keys_by_id.val
    (true,
      { keys_by_id := keys_by_id, keys := keys,
        data := fun k => if keys.contains k then s.data k else none,
        localData := s.localData })

/-- `enum Error` from the source. -/
inductive Error where
  | invalidSignature
  | dataTooLarge
  | singleAccountMultipleData
deriving DecidableEq, Repr

/-- The synchronous pre-filter loop of `Cache::verify`: walk the batch in
order, aborting with `DataTooLarge` on an oversize payload and with
`SingleAccountMultipleData` when the working map `new_data` already holds
an entry for the same account key; keep an element only if `is_new`.
`maxSize` is `MAX_ACCOUNT_DATA_SIZE_BYTES` (defined outside this
fragment), kept as a parameter. -/
def prefilterGo (s : CacheSnapshot) (maxSize : Nat) :
    List (PublicKey × SignedAccountData) → List SignedAccountData →
    Except Error (List (PublicKey × SignedAccountData))
  | new_data, [] => .ok new_data
  | new_data, d :: rest =>
    if d.payload_len > maxSize then .error .dataTooLarge
    else if (lookupA new_data d.account_key).isSome then
      .error .singleAccountMultipleData
    else if is_new s d then
      prefilterGo s maxSize ((d.account_key, d) :: new_data) rest
    else prefilterGo s maxSize new_data rest

/-- The parallel signature-verification stage
(`concurrency::rayon::try_map` over `new_data.into_values()`), modelled
sequentially: collect verified elements until the first invalid
signature, which stops the pipeline. -/
def try_map_verify :
    List (PublicKey × SignedAccountData) → List SignedAccountData × Bool
  | [] => ([], true)
  | (_, d) :: rest =>
    if sigValid d then
      let r := try_map_verify rest
      (d :: r.1, r.2)
    else ([], false)

/-- `Cache::verify`: pre-filter, then signature verification. On a
pre-filter error the result is empty; on a signature failure the
successes so far are returned together with `InvalidSignature`. -/
def cacheVerify (s : CacheSnapshot) (maxSize : Nat)
    (batch : List SignedAccountData) :
    List SignedAccountData × Option Error :=
  match prefilterGo s maxSize [] batch with
  | .error e => ([], some e)
  | .ok new_data =>
    let r := try_map_verify new_data
    if r.2 then (r.1, none) else (r.1, some .invalidSignature)

/-- The commit stage of `Cache::insert`:
`data.into_iter().filter_map(|d| inner.try_insert(clock, d)).collect()`. -/
def insertAll (encLen : VersionedAccountData → Nat) (clock : Timestamp) :
    CacheSnapshot → List SignedAccountData →
    List SignedAccountData × CacheSnapshot
  | s, [] => ([], s)
  | s, d :: rest =>
    let r := try_insert encLen s clock d
    match r.1 with
    | some v =>
      let r2 := insertAll encLen clock r.2 rest
      (v :: r2.1, r2.2)
    | none => insertAll encLen clock r.2 rest

/-- `Cache::insert`: verify the batch, then commit the verified data
(even when verification reported an error); returns the inserted records,
the verification error, and the published snapshot. -/
def cacheInsert (encLen : VersionedAccountData → Nat) (maxSize : Nat)
    (clock : Timestamp) (s : CacheSnapshot)
    (batch : List SignedAccountData) :
    (List SignedAccountData × Option Error) × CacheSnapshot :=
  let r := cacheVerify s maxSize batch
  let r2 := insertAll encLen clock s r.1
  ((r2.1, r.2), r2.2)

/-- One mutating operation of the `Cache` API. -/
inductive CacheOp where
  | insertBatch (clock : Timestamp) (ds : List SignedAccountData)
  | setLocalOp (clock : Timestamp) (l : LocalData)
  | setKeysOp (ak : ArcAccountKeys)

/-- Apply one `Cache` operation to the published snapshot. -/
def applyOp (encLen : VersionedAccountData → Nat) (maxSize : Nat)
    (s : CacheSnapshot) : CacheOp → CacheSnapshot
  | .insertBatch clock ds => (cacheInsert encLen maxSize clock s ds).2
  | .setLocalOp clock l => (set_local encLen s clock l).2
  | .setKeysOp ak => (set_keys s ak).2

/-- Run a sequence of `insert` batches (each with its own clock reading),
collecting every record the cache accepted (returned in an `inserted`
list) along the way. -/
def runInsertBatches (encLen : VersionedAccountData → Nat) (maxSize : Nat) :
    CacheSnapshot → List (Timestamp × List SignedAccountData) →
    List SignedAccountData × CacheSnapshot
  | s, [] => ([], s)
  | s, (clock, ds) :: rest =>
    let r := cacheInsert encLen maxSize clock s ds
    let r2 := runInsertBatches encLen maxSize r.2 rest
    (r.1.1 ++ r2.1, r2.2)

/-- The accepted records concerning account key `k`. -/
def acceptedFor (k : PublicKey) (l : List SignedAccountData) :
    List SignedAccountData :=
  l.filter (fun d => d.account_key == k)

/-- Invariant tying the stored entry for `k` to the accepted records for
`k`: either nothing is stored and nothing was accepted, or the stored
entry is one of the accepted records and has the maximal accepted
version. -/
def VInv (k : PublicKey) (acc : List SignedAccountData)
    (s : CacheSnapshot) : Prop :=
  match s.data k with
  | none => acceptedFor k acc = []
  | some v => v ∈ acceptedFor k acc ∧
      ∀ w ∈ acceptedFor k acc, w.version ≤ v.version

end AccountsData

theorem lookupA_setA_self {α : Type} (l : List (Nat × α)) (h : Nat) (v : α) :
    lookupA (setA l h v) h = some v := by
  induction l with
  | nil => simp [setA, lookupA]
  | cons p rest ih =>
    obtain ⟨k, w⟩ := p
    by_cases hk : k = h
    · simp [setA, hk, lookupA]
    · simp [setA, hk, lookupA, ih]

theorem removeA_of_lookupA_none {α : Type} (l : List (Nat × α)) (h : Nat)
    (hl : lookupA l h = none) : removeA l h = l := by
  induction l with
  | nil => simp [removeA]
  | cons p rest ih =>
    obtain ⟨k, w⟩ := p
    by_cases hk : k = h
    · simp [lookupA, hk] at hl
    · simp [lookupA, hk] at hl
      simp [removeA, hk, ih hl]

theorem lookupA_eq_none_of_not_mem {α : Type} (l : List (Nat × α)) (h : Nat)
    (hm : h ∉ l.map Prod.fst) : lookupA l h = none := by
  induction l with
  | nil => simp [lookupA]
  | cons p rest ih =>
    obtain ⟨k, w⟩ := p
    simp only [List.map_cons, List.mem_cons] at hm
    push_neg at hm
    have hkn : ¬ k = h := fun hk => hm.1 hk.symm
    simp only [lookupA, if_neg hkn]
    exact ih hm.2

theorem lookupA_removeA_self_of_nodup {α : Type} (l : List (Nat × α)) (h : Nat)
    (hnd : (l.map Prod.fst).Nodup) : lookupA (removeA l h) h = none := by
  induction l with
  | nil => simp [removeA, lookupA]
  | cons p rest ih =>
    obtain ⟨k, w⟩ := p
    simp only [List.map_cons, List.nodup_cons] at hnd
    by_cases hk : k = h
    · subst hk
      simp only [removeA, if_pos rfl]
      exact lookupA_eq_none_of_not_mem rest k hnd.1
    · simp only [removeA, if_neg hk, lookupA, if_neg hk]
      exact ih hnd.2

namespace Prefetch

theorem sumCharge_nil : sumCharge [] = 0 := rfl

theorem sumCharge_cons (k : CryptoHash) (s : PrefetchSlot)
    (rest : List (CryptoHash × PrefetchSlot)) :
    sumCharge ((k, s) :: rest) = charge s + sumCharge rest := by
  simp [sumCharge]

theorem charge_le_sumCharge (l : List (CryptoHash × PrefetchSlot))
    (h : CryptoHash) (v : PrefetchSlot) (hl : lookupA l h = some v) :
    charge v ≤ sumCharge l := by
  induction l with
  | nil => simp [lookupA] at hl
  | cons p rest ih =>
    obtain ⟨k, w⟩ := p
    rw [sumCharge_cons]
    by_cases hk : k = h
    · simp only [lookupA, if_pos hk, Option.some.injEq] at hl
      subst hl
      exact Nat.le_add_right _ _
    · simp only [lookupA, if_neg hk] at hl
      exact le_add_left (ih hl)

theorem sumCharge_setA_of_none (l : List (CryptoHash × PrefetchSlot))
    (h : CryptoHash) (s : PrefetchSlot) (hl : lookupA l h = none) :
    sumCharge (setA l h s) = sumCharge l + charge s := by
  induction l with
  | nil => simp [setA, sumCharge_cons, sumCharge_nil, Nat.add_comm]
  | cons p rest ih =>
    obtain ⟨k, w⟩ := p
    by_cases hk : k = h
    · simp [lookupA, hk] at hl
    · simp only [lookupA, if_neg hk] at hl
      simp only [setA, if_neg hk, sumCharge_cons, ih hl]
      omega

theorem sumCharge_setA_of_some (l : List (CryptoHash × PrefetchSlot))
    (h : CryptoHash) (v s : PrefetchSlot) (hl : lookupA l h = some v) :
    sumCharge (setA l h s) + charge v = sumCharge l + charge s := by
  induction l with
  | nil => simp [lookupA] at hl
  | cons p rest ih =>
    obtain ⟨k, w⟩ := p
    by_cases hk : k = h
    · simp only [lookupA, if_pos hk, Option.some.injEq] at hl
      subst hl
      simp only [setA, if_pos hk, sumCharge_cons]
      omega
    · simp only [lookupA, if_neg hk] at hl
      simp only [setA, if_neg hk, sumCharge_cons]
      have := ih hl
      omega

theorem sumCharge_removeA_of_some (l : List (CryptoHash × PrefetchSlot))
    (h : CryptoHash) (v : PrefetchSlot) (hl : lookupA l h = some v) :
    sumCharge l = sumCharge (removeA l h) + charge v := by
  induction l with
  | nil => simp [lookupA] at hl
  | cons p rest ih =>
    obtain ⟨k, w⟩ := p
    by_cases hk : k = h
    · simp only [lookupA, if_pos hk, Option.some.injEq] at hl
      subst hl
      simp only [removeA, if_pos hk, sumCharge_cons]
      omega
    · simp only [lookupA, if_neg hk] at hl
      simp only [removeA, if_neg hk, sumCharge_cons]
      have := ih hl
      omega

theorem charge_toSlot (kind : ReserveKind) :
    charge kind.toSlot = PREFETCH_RESERVED_BYTES_PER_SLOT := by
  cases kind <;> rfl

theorem chargeInv_stagingStep (st : InnerPrefetchStagingArea) (op : StagingOp)
    (hinv : ChargeInv st) (hleg : legalOp st op = true) :
    ChargeInv (stagingStep st op) := by
  cases op with
  | reserve key kind =>
    simp only [stagingStep, get_and_set_if_empty]
    rcases hfind : lookupA st.slots key with _ | s
    · by_cases hfull :
        st.size_bytes >
          MAX_PREFETCH_STAGING_MEMORY - PREFETCH_RESERVED_BYTES_PER_SLOT
      · simpa [hfull] using hinv
      · simp only [hfull, if_false]
        show st.size_bytes + PREFETCH_RESERVED_BYTES_PER_SLOT =
          sumCharge (setA st.slots key kind.toSlot)
        rw [sumCharge_setA_of_none st.slots key _ hfind, charge_toSlot]
        exact congrArg (· + PREFETCH_RESERVED_BYTES_PER_SLOT) hinv
    · cases s <;> simpa using hinv
  | insertFetched key value =>
    have hfind : lookupA st.slots key = some .pendingPrefetch := by
      simpa [legalOp] using hleg
    have hle := charge_le_sumCharge st.slots key _ hfind
    have hset := sumCharge_setA_of_some st.slots key _ (.done value) hfind
    simp only [charge] at hle hset
    show st.size_bytes - PREFETCH_RESERVED_BYTES_PER_SLOT + value.length =
      sumCharge (setA st.slots key (.done value))
    rw [hinv]
    omega
  | releaseOp key =>
    have hfind : lookupA st.slots key ≠ some .pendingPrefetch := by
      simpa [legalOp] using hleg
    show (release st key).size_bytes = sumCharge (release st key).slots
    rcases hl : lookupA st.slots key with _ | s
    · simp only [release, hl]
      rw [removeA_of_lookupA_none st.slots key hl]
      exact hinv
    · cases s with
      | pendingPrefetch => exact absurd hl hfind
      | pendingFetch =>
        have hrm := sumCharge_removeA_of_some st.slots key _ hl
        simp only [charge] at hrm
        simp only [release, hl]
        rw [hinv]
        omega
      | done value =>
        have hrm := sumCharge_removeA_of_some st.slots key _ hl
        simp only [charge] at hrm
        simp only [release, hl]
        rw [hinv]
        omega

theorem chargeInv_runStaging_take (ops : List StagingOp)
    (st : InnerPrefetchStagingArea) (n : Nat) (hinv : ChargeInv st)
    (hleg : Legal st ops) : ChargeInv (runStaging st (ops.take n)) := by
  induction ops generalizing st n with
  | nil => simpa [runStaging] using hinv
  | cons op rest ih =>
    cases n with
    | zero => simpa [runStaging] using hinv
    | succ m =>
      simp only [List.take_succ_cons, runStaging, List.foldl_cons]
      exact ih (stagingStep st op) m
        (chargeInv_stagingStep st op hinv hleg.1) hleg.2

theorem sizeBound_stagingStep (st : InnerPrefetchStagingArea) (op : StagingOp)
    (hb : st.size_bytes ≤ MAX_PREFETCH_STAGING_MEMORY)
    (hsmall : smallOp op = true) :
    (stagingStep st op).size_bytes ≤ MAX_PREFETCH_STAGING_MEMORY := by
  cases op with
  | reserve key kind =>
    simp only [stagingStep, get_and_set_if_empty]
    rcases hfind : lookupA st.slots key with _ | s
    · by_cases hfull :
        st.size_bytes >
          MAX_PREFETCH_STAGING_MEMORY - PREFETCH_RESERVED_BYTES_PER_SLOT
      · simpa [hfull] using hb
      · simp only [hfull, if_false]
        show st.size_bytes + PREFETCH_RESERVED_BYTES_PER_SLOT ≤
          MAX_PREFETCH_STAGING_MEMORY
        simp only [MAX_PREFETCH_STAGING_MEMORY,
          PREFETCH_RESERVED_BYTES_PER_SLOT] at hfull ⊢
        omega
    · cases s <;> simpa using hb
  | insertFetched key value =>
    have hlen : value.length ≤ PREFETCH_RESERVED_BYTES_PER_SLOT :=
      of_decide_eq_true hsmall
    show st.size_bytes - PREFETCH_RESERVED_BYTES_PER_SLOT + value.length ≤
      MAX_PREFETCH_STAGING_MEMORY
    simp only [MAX_PREFETCH_STAGING_MEMORY,
      PREFETCH_RESERVED_BYTES_PER_SLOT] at hb hlen ⊢
    omega
  | releaseOp key =>
    show (release st key).size_bytes ≤ MAX_PREFETCH_STAGING_MEMORY
    rcases hl : lookupA st.slots key with _ | s
    · simpa [release, hl] using hb
    · cases s <;> simp only [release, hl] <;> omega

theorem sizeBound_runStaging_take (ops : List StagingOp)
    (st : InnerPrefetchStagingArea) (n : Nat)
    (hb : st.size_bytes ≤ MAX_PREFETCH_STAGING_MEMORY)
    (hsmall : SmallInserts ops) :
    (runStaging st (ops.take n)).size_bytes ≤ MAX_PREFETCH_STAGING_MEMORY := by
  induction ops generalizing st n with
  | nil => simpa [runStaging] using hb
  | cons op rest ih =>
    cases n with
    | zero => simpa [runStaging] using hb
    | succ m =>
      simp only [SmallInserts, List.all_cons, Bool.and_eq_true] at hsmall
      simp only [List.take_succ_cons, runStaging, List.foldl_cons]
      exact ih (stagingStep st op) m
        (sizeBound_stagingStep st op hb hsmall.1) hsmall.2

/-- C2 (counterexample): the charge-accounting invariant fails for
arbitrary operation sequences. Releasing a `PendingPrefetch` slot removes
it without refunding its quantum, and `insert_fetched` on a slot that is
already `Done` distorts the accounting; after either sequence below,
`size_bytes` differs from the summed slot charge. -/
theorem staging_charge_counterexample :
    (runStaging emptyStaging
        [StagingOp.reserve 1 .prefetch, StagingOp.releaseOp 1]).size_bytes ≠
      sumCharge (runStaging emptyStaging
        [StagingOp.reserve 1 .prefetch, StagingOp.releaseOp 1]).slots
    ∧ (runStaging emptyStaging
        [StagingOp.reserve 1 .prefetch, StagingOp.reserve 2 .prefetch,
         StagingOp.insertFetched 1 [0],
         StagingOp.insertFetched 1 [0, 0]]).size_bytes ≠
      sumCharge (runStaging emptyStaging
        [StagingOp.reserve 1 .prefetch, StagingOp.reserve 2 .prefetch,
         StagingOp.insertFetched 1 [0],
         StagingOp.insertFetched 1 [0, 0]]).slots := by
  constructor <;> decide

/-- C2 (amended): for every sequence of staging-area operations in which
each `insert_fetched` is applied to a hash currently holding a
`PendingPrefetch` slot and `release` is never applied to a hash holding a
`PendingPrefetch` slot (the code's debug-checked preconditions), after
each operation `size_bytes` equals the sum over current slots of their
charge: the reservation quantum for `PendingPrefetch`/`PendingFetch` and
the byte length for `Done`. -/
theorem staging_charge_invariant (ops : List StagingOp) (n : Nat)
    (hleg : Legal emptyStaging ops) :
    (runStaging emptyStaging (ops.take n)).size_bytes =
      sumCharge (runStaging emptyStaging (ops.take n)).slots :=
  chargeInv_runStaging_take ops emptyStaging n rfl hleg

theorem staging_charge_invariant_witness :
    (runStaging emptyStaging
      ([StagingOp.reserve 1 .prefetch, StagingOp.insertFetched 1 [5],
        StagingOp.releaseOp 1].take 3)).size_bytes =
      sumCharge (runStaging emptyStaging
        ([StagingOp.reserve 1 .prefetch, StagingOp.insertFetched 1 [5],
          StagingOp.releaseOp 1].take 3)).slots :=
  staging_charge_invariant
    [StagingOp.reserve 1 .prefetch, StagingOp.insertFetched 1 [5],
     StagingOp.releaseOp 1] 3 ⟨by decide, by decide, by decide, trivial⟩

/-- C3: starting from the empty staging area, for every operation
sequence whose `insert_fetched` calls each supply at most the 4 MiB
reservation quantum, `size_bytes` never exceeds
`MAX_PREFETCH_STAGING_MEMORY` (200 MiB) after any prefix of the
sequence; moreover a reservation that would push `size_bytes` over the
limit is refused with `MemoryLimitReached` and leaves the state
unchanged. -/
theorem staging_size_bounded (ops : List StagingOp) (n : Nat)
    (hsmall : SmallInserts ops) :
    (runStaging emptyStaging (ops.take n)).size_bytes ≤
      MAX_PREFETCH_STAGING_MEMORY
    ∧ ∀ (st : InnerPrefetchStagingArea) (key : CryptoHash) (s : PrefetchSlot),
        lookupA st.slots key = none →
        st.size_bytes + PREFETCH_RESERVED_BYTES_PER_SLOT >
          MAX_PREFETCH_STAGING_MEMORY →
        get_and_set_if_empty st key s = (.memoryLimitReached, st) := by
  constructor
  · exact sizeBound_runStaging_take ops emptyStaging n (by decide) hsmall
  · intro st key s hslot hover
    have hfull : st.size_bytes >
        MAX_PREFETCH_STAGING_MEMORY - PREFETCH_RESERVED_BYTES_PER_SLOT := by
      simp only [MAX_PREFETCH_STAGING_MEMORY,
        PREFETCH_RESERVED_BYTES_PER_SLOT] at hover ⊢
      omega
    simp [get_and_set_if_empty, hslot, hfull]

theorem staging_size_bounded_witness :
    (runStaging emptyStaging
      ([StagingOp.reserve 1 .prefetch, StagingOp.insertFetched 1 [9]].take 2)).size_bytes ≤
      MAX_PREFETCH_STAGING_MEMORY
    ∧ ∀ (st : InnerPrefetchStagingArea) (key : CryptoHash) (s : PrefetchSlot),
        lookupA st.slots key = none →
        st.size_bytes + PREFETCH_RESERVED_BYTES_PER_SLOT >
          MAX_PREFETCH_STAGING_MEMORY →
        get_and_set_if_empty st key s = (.memoryLimitReached, st) :=
  staging_size_bounded
    [StagingOp.reserve 1 .prefetch, StagingOp.insertFetched 1 [9]] 2
    (by decide)

/-- C4: `get_and_set_if_empty` returns `Prefetched(b)` when the slot is
`Done(b)`, `Pending` when a pending slot exists, and for an absent slot it
returns `MemoryLimitReached` (without change) exactly when
`size_bytes > MAX_PREFETCH_STAGING_MEMORY − PREFETCH_RESERVED_BYTES_PER_SLOT`,
and otherwise installs the supplied slot, adds the reservation quantum to
`size_bytes`, and returns `SlotReserved`. -/
theorem get_and_set_if_empty_spec (st : InnerPrefetchStagingArea)
    (key : CryptoHash) (s : PrefetchSlot) :
    (∀ v, lookupA st.slots key = some (.done v) →
      get_and_set_if_empty st key s = (.prefetched v, st))
    ∧ (lookupA st.slots key = some .pendingPrefetch ∨
        lookupA st.slots key = some .pendingFetch →
      get_and_set_if_empty st key s = (.pending, st))
    ∧ (lookupA st.slots key = none →
        st.size_bytes >
          MAX_PREFETCH_STAGING_MEMORY - PREFETCH_RESERVED_BYTES_PER_SLOT →
      get_and_set_if_empty st key s = (.memoryLimitReached, st))
    ∧ (lookupA st.slots key = none →
        ¬ st.size_bytes >
          MAX_PREFETCH_STAGING_MEMORY - PREFETCH_RESERVED_BYTES_PER_SLOT →
      get_and_set_if_empty st key s =
        (.slotReserved,
          { slots := setA st.slots key s,
            size_bytes := st.size_bytes + PREFETCH_RESERVED_BYTES_PER_SLOT })
      ∧ lookupA (setA st.slots key s) key = some s) := by
  refine ⟨?_, ?_, ?_, ?_⟩
  · intro v hv
    simp [get_and_set_if_empty, hv]
  · rintro (hp | hp) <;> simp [get_and_set_if_empty, hp]
  · intro hn hfull
    simp [get_and_set_if_empty, hn, hfull]
  · intro hn hfull
    exact ⟨by simp [get_and_set_if_empty, hn, hfull],
      lookupA_setA_self st.slots key s⟩

theorem get_and_set_if_empty_spec_witness :
    get_and_set_if_empty
        { slots := [(1, PrefetchSlot.done [7])], size_bytes := 1 } 1
        .pendingPrefetch =
      (.prefetched [7],
        { slots := [(1, PrefetchSlot.done [7])], size_bytes := 1 }) :=
  (get_and_set_if_empty_spec
    { slots := [(1, PrefetchSlot.done [7])], size_bytes := 1 } 1
    .pendingPrefetch).1 [7] rfl

/-- C9: `release` on a hash whose slot is `PendingPrefetch` removes the
slot but leaves `size_bytes` unchanged — the quantum charge is never
refunded — unlike a `Done` slot (its byte length is refunded) and a
`PendingFetch` slot (the quantum is refunded). -/
theorem release_pending_prefetch_no_refund (st : InnerPrefetchStagingArea)
    (key : CryptoHash) :
    (lookupA st.slots key = some .pendingPrefetch →
      release st key =
        { slots := removeA st.slots key, size_bytes := st.size_bytes }
      ∧ ((st.slots.map Prod.fst).Nodup →
          lookupA (release st key).slots key = none))
    ∧ (∀ v, lookupA st.slots key = some (.done v) →
      release st key =
        { slots := removeA st.slots key,
          size_bytes := st.size_bytes - v.length })
    ∧ (lookupA st.slots key = some .pendingFetch →
      release st key =
        { slots := removeA st.slots key,
          size_bytes := st.size_bytes - PREFETCH_RESERVED_BYTES_PER_SLOT }) := by
  refine ⟨fun hp => ⟨?_, fun hnd => ?_⟩, fun v hv => ?_, fun hf => ?_⟩
  · simp [release, hp]
  · simp only [release]
    exact lookupA_removeA_self_of_nodup st.slots key hnd
  · simp [release, hv]
  · simp [release, hf]

theorem release_pending_prefetch_no_refund_witness :
    release { slots := [(3, PrefetchSlot.pendingPrefetch)],
              size_bytes := 4194304 } 3 =
      { slots := removeA [(3, PrefetchSlot.pendingPrefetch)] 3,
        size_bytes := 4194304 }
    ∧ (([(3, PrefetchSlot.pendingPrefetch)].map Prod.fst).Nodup →
        lookupA (release { slots := [(3, PrefetchSlot.pendingPrefetch)],
                           size_bytes := 4194304 } 3).slots 3 = none) :=
  (release_pending_prefetch_no_refund
    { slots := [(3, PrefetchSlot.pendingPrefetch)], size_bytes := 4194304 }
    3).1 rfl

/-- C10: when `retrieve_raw_bytes` wins the `SlotReserved` reservation and
the backing-store read then fails (missing record or I/O error), it
returns the error without releasing the reservation: the staging area
still holds a `PendingPrefetch` slot for the hash carrying its quantum
charge, so any later `get_and_set_if_empty` for that hash returns
`Pending`. -/
theorem retrieve_error_keeps_reservation
    (sc : CryptoHash → Option Bytes) (store : CryptoHash → StoreRes)
    (st : InnerPrefetchStagingArea) (hash : CryptoHash)
    (hsc : sc hash = none) (hslot : lookupA st.slots hash = none)
    (hsize : ¬ st.size_bytes >
      MAX_PREFETCH_STAGING_MEMORY - PREFETCH_RESERVED_BYTES_PER_SLOT)
    (hstore : store hash = .missing ∨ store hash = .ioError) :
    (store hash = .missing →
      (retrieve_raw_bytes sc store st hash).1 =
        .storageInconsistentState "Trie node missing")
    ∧ (store hash = .ioError →
      (retrieve_raw_bytes sc store st hash).1 = .storageInternalError)
    ∧ (retrieve_raw_bytes sc store st hash).2.slots =
        setA st.slots hash .pendingPrefetch
    ∧ lookupA (retrieve_raw_bytes sc store st hash).2.slots hash =
        some .pendingPrefetch
    ∧ (retrieve_raw_bytes sc store st hash).2.size_bytes =
        st.size_bytes + PREFETCH_RESERVED_BYTES_PER_SLOT
    ∧ ∀ s, get_and_set_if_empty (retrieve_raw_bytes sc store st hash).2 hash s =
        (.pending, (retrieve_raw_bytes sc store st hash).2) := by
  have hgase : get_and_set_if_empty st hash .pendingPrefetch =
      (.slotReserved,
        { slots := setA st.slots hash .pendingPrefetch,
          size_bytes := st.size_bytes + PREFETCH_RESERVED_BYTES_PER_SLOT }) := by
    simp [get_and_set_if_empty, hslot, hsize]
  rcases hstore with hm | hm
  · have hr : retrieve_raw_bytes sc store st hash =
        (.storageInconsistentState "Trie node missing",
          { slots := setA st.slots hash .pendingPrefetch,
            size_bytes := st.size_bytes + PREFETCH_RESERVED_BYTES_PER_SLOT }) := by
      simp only [retrieve_raw_bytes, hsc, hgase, hm]
    refine ⟨fun _ => by rw [hr], fun hio => ?_, by rw [hr], ?_, by rw [hr],
      fun s => ?_⟩
    · rw [hm] at hio
      exact StoreRes.noConfusion hio
    · rw [hr]
      exact lookupA_setA_self st.slots hash .pendingPrefetch
    · rw [hr]
      simp [get_and_set_if_empty, lookupA_setA_self st.slots hash .pendingPrefetch]
  · have hr : retrieve_raw_bytes sc store st hash =
        (.storageInternalError,
          { slots := setA st.slots hash .pendingPrefetch,
            size_bytes := st.size_bytes + PREFETCH_RESERVED_BYTES_PER_SLOT }) := by
      simp only [retrieve_raw_bytes, hsc, hgase, hm]
    refine ⟨fun hmi => ?_, fun _ => by rw [hr], by rw [hr], ?_, by rw [hr],
      fun s => ?_⟩
    · rw [hm] at hmi
      exact StoreRes.noConfusion hmi
    · rw [hr]
      exact lookupA_setA_self st.slots hash .pendingPrefetch
    · rw [hr]
      simp [get_and_set_if_empty, lookupA_setA_self st.slots hash .pendingPrefetch]

theorem retrieve_error_keeps_reservation_witness :
    ((fun _ => StoreRes.missing : CryptoHash → StoreRes) 0 = .missing →
      (retrieve_raw_bytes (fun _ => none) (fun _ => .missing) emptyStaging 0).1 =
        .storageInconsistentState "Trie node missing")
    ∧ ((fun _ => StoreRes.missing : CryptoHash → StoreRes) 0 = .ioError →
      (retrieve_raw_bytes (fun _ => none) (fun _ => .missing) emptyStaging 0).1 =
        .storageInternalError)
    ∧ (retrieve_raw_bytes (fun _ => none) (fun _ => .missing) emptyStaging 0).2.slots =
        setA emptyStaging.slots 0 .pendingPrefetch
    ∧ lookupA (retrieve_raw_bytes (fun _ => none) (fun _ => .missing)
        emptyStaging 0).2.slots 0 = some .pendingPrefetch
    ∧ (retrieve_raw_bytes (fun _ => none) (fun _ => .missing)
        emptyStaging 0).2.size_bytes =
        emptyStaging.size_bytes + PREFETCH_RESERVED_BYTES_PER_SLOT
    ∧ ∀ s, get_and_set_if_empty
        (retrieve_raw_bytes (fun _ => none) (fun _ => .missing)
          emptyStaging 0).2 0 s =
        (.pending,
          (retrieve_raw_bytes (fun _ => none) (fun _ => .missing)
            emptyStaging 0).2) :=
  retrieve_error_keeps_reservation (fun _ => none) (fun _ => .missing)
    emptyStaging 0 rfl rfl (by decide) (Or.inl rfl)

end Prefetch

theorem lookupA_cons_isSome {α : Type} (acc : List (Nat × α)) (k h : Nat)
    (v : α) (hs : (lookupA acc h).isSome = true) :
    (lookupA ((k, v) :: acc) h).isSome = true := by
  by_cases hk : k = h <;> simp [lookupA, hk, hs]

theorem lookupA_cons_ne {α : Type} (acc : List (Nat × α)) (k h : Nat)
    (v : α) (hk : k ≠ h) : lookupA ((k, v) :: acc) h = lookupA acc h := by
  simp [lookupA, hk]

namespace AccountsData

theorem overrideLocal_account_key (encLen : VersionedAccountData → Nat)
    (clock : Timestamp) (ld : Option LocalData) (d : SignedAccountData) :
    (overrideLocal encLen clock ld d).account_key = d.account_key := by
  rcases ld with _ | l
  · rfl
  · simp only [overrideLocal]
    by_cases hk : d.account_key = l.signer
    · simp [hk, sign]
    · simp [hk]

theorem overrideLocal_version_ge (encLen : VersionedAccountData → Nat)
    (clock : Timestamp) (ld : Option LocalData) (d : SignedAccountData) :
    d.version ≤ (overrideLocal encLen clock ld d).version := by
  rcases ld with _ | l
  · exact le_refl _
  · simp only [overrideLocal]
    by_cases hk : d.account_key = l.signer
    · rw [if_pos hk]
      simp only [sign]
      omega
    · simp [hk]

theorem is_new_version_lt (s : CacheSnapshot) (x old : SignedAccountData)
    (hnew : is_new s x = true) (hold : s.data x.account_key = some old) :
    old.version < x.version := by
  simp only [is_new, hold, Bool.and_eq_true] at hnew
  rcases hnew with ⟨-, h2⟩
  by_cases hle : old.version ≥ x.version
  · rw [if_pos hle] at h2
    cases h2
  · omega

theorem try_insert_of_new (encLen : VersionedAccountData → Nat)
    (s : CacheSnapshot) (clock : Timestamp) (d : SignedAccountData)
    (hnew : is_new s d = true) :
    try_insert encLen s clock d =
      (some (overrideLocal encLen clock s.localData d),
       { s with
         data := mapInsert s.data
                   (overrideLocal encLen clock s.localData d).account_key
                   (overrideLocal encLen clock s.localData d) }) := by
  simp [try_insert, hnew]

theorem try_insert_of_not_new (encLen : VersionedAccountData → Nat)
    (s : CacheSnapshot) (clock : Timestamp) (d : SignedAccountData)
    (hnew : is_new s d = false) :
    try_insert encLen s clock d = (none, s) := by
  simp [try_insert, hnew]

theorem try_insert_data_mono (encLen : VersionedAccountData → Nat)
    (s : CacheSnapshot) (clock : Timestamp) (x : SignedAccountData)
    (k : PublicKey) (d : SignedAccountData) (hd : s.data k = some d) :
    ∃ d', (try_insert encLen s clock x).2.data k = some d'
      ∧ d.version ≤ d'.version := by
  cases hnew : is_new s x with
  | false =>
    rw [try_insert_of_not_new encLen s clock x hnew]
    exact ⟨d, hd, le_refl _⟩
  | true =>
    rw [try_insert_of_new encLen s clock x hnew]
    by_cases hk : k = (overrideLocal encLen clock s.localData x).account_key
    · refine ⟨overrideLocal encLen clock s.localData x, by simp [mapInsert, hk], ?_⟩
      have hk' : k = x.account_key := by
        rw [hk, overrideLocal_account_key]
      have hlt := is_new_version_lt s x d hnew (hk' ▸ hd)
      have hge := overrideLocal_version_ge encLen clock s.localData x
      omega
    · exact ⟨d, by simpa [mapInsert, hk] using hd, le_refl _⟩

theorem insertAll_cons_snd (encLen : VersionedAccountData → Nat)
    (clock : Timestamp) (s : CacheSnapshot) (x : SignedAccountData)
    (rest : List SignedAccountData) :
    (insertAll encLen clock s (x :: rest)).2 =
      (insertAll encLen clock (try_insert encLen s clock x).2 rest).2 := by
  cases h : (try_insert encLen s clock x).1 with
  | none => simp [insertAll, h]
  | some v => simp [insertAll, h]

theorem insertAll_data_mono (encLen : VersionedAccountData → Nat)
    (clock : Timestamp) (ds : List SignedAccountData) (s : CacheSnapshot)
    (k : PublicKey) (d : SignedAccountData) (hd : s.data k = some d) :
    ∃ d', (insertAll encLen clock s ds).2.data k = some d'
      ∧ d.version ≤ d'.version := by
  induction ds generalizing s d with
  | nil => exact ⟨d, hd, le_refl _⟩
  | cons x rest ih =>
    obtain ⟨d1, hd1, hv1⟩ := try_insert_data_mono encLen s clock x k d hd
    obtain ⟨d2, hd2, hv2⟩ := ih (try_insert encLen s clock x).2 d1 hd1
    exact ⟨d2, by rw [insertAll_cons_snd]; exact hd2, le_trans hv1 hv2⟩

theorem set_local_data_mono (encLen : VersionedAccountData → Nat)
    (s : CacheSnapshot) (clock : Timestamp) (l : LocalData) (k : PublicKey)
    (d : SignedAccountData) (hd : s.data k = some d) :
    ∃ d', (set_local encLen s clock l).2.data k = some d'
      ∧ d.version ≤ d'.version := by
  by_cases hc : l.signer ∈ s.keys
  · by_cases hk : k = l.signer
    · subst hk
      refine ⟨sign encLen l.signer ⟨l.data, l.signer, d.version + 1, clock⟩,
        ?_, ?_⟩
      · simp [set_local, hc, mapInsert, hd]
      · simp only [sign]
        omega
    · exact ⟨d, by simpa [set_local, hc, mapInsert, hk] using hd, le_refl _⟩
  · exact ⟨d, by simpa [set_local, hc] using hd, le_refl _⟩

theorem set_keys_data_eq (s : CacheSnapshot) (ak : ArcAccountKeys)
    (k : PublicKey) (d' : SignedAccountData)
    (h : (set_keys s ak).2.data k = some d') : s.data k = some d' := by
  by_cases hv : ak.val = s.keys_by_id.val
  · simpa [set_keys, hv] using h
  · simp [set_keys, hv] at h
    exact h.2

theorem cacheInsert_inserted (encLen : VersionedAccountData → Nat)
    (maxSize : Nat) (clock : Timestamp) (s : CacheSnapshot)
    (batch : List SignedAccountData) :
    (cacheInsert encLen maxSize clock s batch).1.1 =
      (insertAll encLen clock s (cacheVerify s maxSize batch).1).1 := rfl

theorem cacheInsert_snd (encLen : VersionedAccountData → Nat)
    (maxSize : Nat) (clock : Timestamp) (s : CacheSnapshot)
    (batch : List SignedAccountData) :
    (cacheInsert encLen maxSize clock s batch).2 =
      (insertAll encLen clock s (cacheVerify s maxSize batch).1).2 := rfl

/-- C7 (counterexample): `set_keys` compares the new and stored
`keys_by_id` by value, not by pointer: called with a pointer-distinct but
value-equal map it still returns `false`, contradicting the claim that
`false` is returned exactly on pointer equality. -/
theorem set_keys_pointer_counterexample :
    (set_keys
      { keys_by_id := ⟨0, [(1, [5])]⟩, keys := [5],
        data := fun _ => none, localData := none }
      ⟨1, [(1, [5])]⟩).1 = false
    ∧ (⟨1, [(1, [5])]⟩ : ArcAccountKeys).ptr ≠
      ({ keys_by_id := ⟨0, [(1, [5])]⟩, keys := [5],
         data := fun _ => none, localData := none } :
        CacheSnapshot).keys_by_id.ptr := by
  exact ⟨rfl, by decide⟩

/-- C7 (amended): `set_keys` returns `false` and changes nothing exactly
when the new `keys_by_id` is equal **as a value** to the stored one (of
which pointer equality is a special case); otherwise it recomputes the
flat key set as the union of the nested values, retains from `data` only
entries whose key is still in the new key set, publishes the new
snapshot, and returns `true`. -/
theorem set_keys_spec (s : CacheSnapshot) (ak : ArcAccountKeys) :
    (ak.val = s.keys_by_id.val → set_keys s ak = (false, s))
    ∧ (ak.val ≠ s.keys_by_id.val →
        set_keys s ak =
          (true,
            { keys_by_id := ak, keys := flatKeys ak.val,
              data := fun k =>
                if (flatKeys ak.val).contains k then s.data k else none,
              localData := s.localData })) := by
  constructor <;> intro h <;> simp [set_keys, h]

theorem set_keys_spec_witness :
    set_keys
        { keys_by_id := ⟨0, []⟩, keys := [],
          data := fun _ => none, localData := none }
        ⟨0, [(1, [5])]⟩ =
      (true,
        { keys_by_id := ⟨0, [(1, [5])]⟩, keys := flatKeys [(1, [5])],
          data := fun k =>
            if (flatKeys [(1, [5])]).contains k then
              (fun _ => (none : Option SignedAccountData)) k
            else none,
          localData := none }) :=
  (set_keys_spec
    { keys_by_id := ⟨0, []⟩, keys := [],
      data := fun _ => none, localData := none }
    ⟨0, [(1, [5])]⟩).2 (by decide)

/-- C5: when the snapshot holds a local signer with key `k` and an
incoming record `d` with `d.account_key = k` passes `is_new`,
`try_insert` does not insert `d` itself but a freshly signed record built
from the local `AccountData` at `version = d.version + 1` and
`timestamp = clock`, stores it under the key and returns it for
rebroadcast; the rebuilt record differs from `d`. -/
theorem try_insert_self_override (encLen : VersionedAccountData → Nat)
    (s : CacheSnapshot) (clock : Timestamp) (d : SignedAccountData)
    (l : LocalData) (hl : s.localData = some l)
    (hk : d.account_key = l.signer) (hnew : is_new s d = true) :
    try_insert encLen s clock d =
      (some (sign encLen l.signer ⟨l.data, l.signer, d.version + 1, clock⟩),
        { s with
          data := mapInsert s.data l.signer
                    (sign encLen l.signer
                      ⟨l.data, l.signer, d.version + 1, clock⟩) })
    ∧ sign encLen l.signer ⟨l.data, l.signer, d.version + 1, clock⟩ ≠ d := by
  constructor
  · rw [try_insert_of_new encLen s clock d hnew]
    have hov : overrideLocal encLen clock s.localData d =
        sign encLen l.signer ⟨l.data, l.signer, d.version + 1, clock⟩ := by
      simp [overrideLocal, hl, hk]
    rw [hov]
    rfl
  · intro he
    have hv := congrArg SignedAccountData.version he
    simp only [sign] at hv
    omega

theorem try_insert_self_override_witness :
    try_insert (fun _ => 0)
        ⟨⟨0, [(1, [5])]⟩, [5], fun _ => none, some ⟨5, 77⟩⟩ 9
        ⟨0, 5, 3, 0, 1, 5⟩ =
      (some (sign (fun _ => 0) (5 : PublicKey) ⟨77, 5, 3 + 1, 9⟩),
        { (⟨⟨0, [(1, [5])]⟩, [5], fun _ => none, some ⟨5, 77⟩⟩ :
            CacheSnapshot) with
          data := mapInsert
                    (⟨⟨0, [(1, [5])]⟩, [5], fun _ => none, some ⟨5, 77⟩⟩ :
                      CacheSnapshot).data 5
                    (sign (fun _ => 0) (5 : PublicKey) ⟨77, 5, 3 + 1, 9⟩) })
    ∧ sign (fun _ => 0) (5 : PublicKey) ⟨77, 5, 3 + 1, 9⟩ ≠
      (⟨0, 5, 3, 0, 1, 5⟩ : SignedAccountData) :=
  try_insert_self_override (fun _ => 0)
    ⟨⟨0, [(1, [5])]⟩, [5], fun _ => none, some ⟨5, 77⟩⟩ 9
    ⟨0, 5, 3, 0, 1, 5⟩ ⟨5, 77⟩ rfl rfl (by decide)

theorem prefilterGo_dup_kept (s : CacheSnapshot) (maxSize : Nat)
    (acc : List (PublicKey × SignedAccountData))
    (xs : List SignedAccountData) (d2 : SignedAccountData)
    (ys : List SignedAccountData)
    (hxs : ∀ x ∈ xs, x.payload_len ≤ maxSize ∧ is_new s x = true)
    (hd2 : d2.payload_len ≤ maxSize)
    (hdup : (∃ x ∈ xs, x.account_key = d2.account_key) ∨
      (lookupA acc d2.account_key).isSome = true) :
    prefilterGo s maxSize acc (xs ++ d2 :: ys) =
      .error .singleAccountMultipleData := by
  induction xs generalizing acc with
  | nil =>
    rcases hdup with ⟨x, hx, -⟩ | hacc
    · exact absurd hx (List.not_mem_nil x)
    · simp only [List.nil_append, prefilterGo]
      rw [if_neg (by omega), if_pos hacc]
  | cons x xs' ih =>
    obtain ⟨hxsz, hxnew⟩ := hxs x (List.mem_cons_self x xs')
    simp only [List.cons_append, prefilterGo]
    rw [if_neg (by omega : ¬ x.payload_len > maxSize)]
    by_cases hlk : (lookupA acc x.account_key).isSome = true
    · rw [if_pos hlk]
    · rw [if_neg hlk, if_pos hxnew]
      refine ih ((x.account_key, x) :: acc)
        (fun x' hx' => hxs x' (List.mem_cons_of_mem x hx')) ?_
      rcases hdup with ⟨x0, hx0, heq⟩ | hacc
      · rcases List.mem_cons.mp hx0 with rfl | hx0'
        · refine Or.inr ?_
          rw [heq]
          simp [lookupA]
        · exact Or.inl ⟨x0, hx0', heq⟩
      · exact Or.inr (lookupA_cons_isSome acc x.account_key d2.account_key x hacc)

theorem prefilterGo_oversize (s : CacheSnapshot) (maxSize : Nat)
    (acc : List (PublicKey × SignedAccountData))
    (xs : List SignedAccountData) (d : SignedAccountData)
    (ys : List SignedAccountData)
    (hxs : ∀ x ∈ xs, x.payload_len ≤ maxSize)
    (hnd : (xs.map SignedAccountData.account_key).Nodup)
    (hacc : ∀ x ∈ xs, lookupA acc x.account_key = none)
    (hd : d.payload_len > maxSize) :
    prefilterGo s maxSize acc (xs ++ d :: ys) = .error .dataTooLarge := by
  induction xs generalizing acc with
  | nil =>
    simp only [List.nil_append, prefilterGo]
    rw [if_pos hd]
  | cons x xs' ih =>
    have hxsz := hxs x (List.mem_cons_self x xs')
    have hx0 := hacc x (List.mem_cons_self x xs')
    simp only [List.map_cons, List.nodup_cons] at hnd
    simp only [List.cons_append, prefilterGo]
    rw [if_neg (by omega : ¬ x.payload_len > maxSize),
      if_neg (by simp [hx0] :
        ¬ (lookupA acc x.account_key).isSome = true)]
    by_cases hnew : is_new s x = true
    · rw [if_pos hnew]
      refine ih ((x.account_key, x) :: acc)
        (fun x' hx' => hxs x' (List.mem_cons_of_mem x hx')) hnd.2 ?_
      intro x' hx'
      have hne : x.account_key ≠ x'.account_key := by
        intro he
        exact hnd.1 (he ▸ List.mem_map_of_mem SignedAccountData.account_key hx')
      rw [lookupA_cons_ne acc x.account_key x'.account_key x hne]
      exact hacc x' (List.mem_cons_of_mem x hx')
    · rw [if_neg hnew]
      exact ih acc (fun x' hx' => hxs x' (List.mem_cons_of_mem x hx')) hnd.2
        (fun x' hx' => hacc x' (List.mem_cons_of_mem x hx'))

/-- C1 (counterexample): a batch whose two entries share an account key
is *not* rejected with `SingleAccountMultipleData` when the earlier
duplicate was not new with respect to the snapshot (here: its key is not
an interesting key, so the pre-filter drops it silently and never records
it in the working map); the call returns no error at all. -/
theorem insert_duplicate_not_new_counterexample :
    (cacheInsert (fun _ => 0) 100 0
      ⟨⟨0, []⟩, [], fun _ => none, none⟩
      [⟨0, 7, 1, 0, 1, 7⟩, ⟨0, 7, 1, 0, 1, 7⟩]).1.2 = none := by
  rfl

/-- C1 (amended): for every batch of the form `xs ++ d2 :: ys` where some
element of `xs` has `d2`'s account key, every element of `xs` is within
the payload-size cap and is new with respect to the snapshot (so the
earlier duplicate is kept in the working map), and `d2` is within the
size cap, `Cache::insert` returns the error `SingleAccountMultipleData`
with an empty inserted list and the published snapshot unchanged. -/
theorem insert_duplicate_kept_aborts (encLen : VersionedAccountData → Nat)
    (maxSize : Nat) (clock : Timestamp) (s : CacheSnapshot)
    (xs : List SignedAccountData) (d2 : SignedAccountData)
    (ys : List SignedAccountData)
    (hxs : ∀ x ∈ xs, x.payload_len ≤ maxSize ∧ is_new s x = true)
    (hd2 : d2.payload_len ≤ maxSize)
    (hdup : ∃ x ∈ xs, x.account_key = d2.account_key) :
    cacheInsert encLen maxSize clock s (xs ++ d2 :: ys) =
      (([], some .singleAccountMultipleData), s) := by
  have hp := prefilterGo_dup_kept s maxSize [] xs d2 ys hxs hd2 (Or.inl hdup)
  simp [cacheInsert, cacheVerify, hp, insertAll]

theorem insert_duplicate_kept_aborts_witness :
    cacheInsert (fun _ => 0) 100 0
        ⟨⟨0, [(1, [5])]⟩, [5], fun _ => none, none⟩
        ([⟨0, 5, 1, 0, 1, 5⟩] ++ ⟨0, 5, 2, 0, 1, 5⟩ :: []) =
      (([], some .singleAccountMultipleData),
        ⟨⟨0, [(1, [5])]⟩, [5], fun _ => none, none⟩) :=
  insert_duplicate_kept_aborts (fun _ => 0) 100 0
    ⟨⟨0, [(1, [5])]⟩, [5], fun _ => none, none⟩
    [⟨0, 5, 1, 0, 1, 5⟩] ⟨0, 5, 2, 0, 1, 5⟩ []
    (by decide) (by decide)
    ⟨⟨0, 5, 1, 0, 1, 5⟩, List.mem_cons_self _ _, rfl⟩

/-- C8 (counterexample): a batch containing an oversize element is *not*
rejected with `DataTooLarge` when an earlier duplicate pair (the first of
which is kept) aborts the scan first: this batch has an element with
`payload_len = 101 > 100 = maxSize`, yet the call returns
`SingleAccountMultipleData`. -/
theorem insert_oversize_counterexample :
    (cacheInsert (fun _ => 0) 100 0
      ⟨⟨0, [(1, [5])]⟩, [5], fun _ => none, none⟩
      [⟨0, 5, 1, 0, 1, 5⟩, ⟨0, 5, 2, 0, 1, 5⟩,
       ⟨0, 9, 1, 0, 101, 9⟩]).1.2 =
      some .singleAccountMultipleData := by
  rfl

/-- C8 (amended): for every batch of the form `xs ++ d :: ys` with
`d.payload_len` above the cap, every element of `xs` within the cap, and
the account keys of `xs` pairwise distinct (so no earlier duplicate pair
aborts the scan first), `Cache::insert` returns the error `DataTooLarge`
with an empty inserted list and the published snapshot unchanged — no
element of the batch, including those preceding `d`, is committed. -/
theorem insert_oversize_aborts (encLen : VersionedAccountData → Nat)
    (maxSize : Nat) (clock : Timestamp) (s : CacheSnapshot)
    (xs : List SignedAccountData) (d : SignedAccountData)
    (ys : List SignedAccountData)
    (hxs : ∀ x ∈ xs, x.payload_len ≤ maxSize)
    (hnd : (xs.map SignedAccountData.account_key).Nodup)
    (hd : d.payload_len > maxSize) :
    cacheInsert encLen maxSize clock s (xs ++ d :: ys) =
      (([], some .dataTooLarge), s) := by
  have hp := prefilterGo_oversize s maxSize [] xs d ys hxs hnd
    (fun x _ => rfl) hd
  simp [cacheInsert, cacheVerify, hp, insertAll]

theorem insert_oversize_aborts_witness :
    cacheInsert (fun _ => 0) 100 0
        ⟨⟨0, [(1, [5])]⟩, [5], fun _ => none, none⟩
        ([⟨0, 5, 1, 0, 1, 5⟩] ++ ⟨0, 9, 1, 0, 101, 9⟩ :: []) =
      (([], some .dataTooLarge),
        ⟨⟨0, [(1, [5])]⟩, [5], fun _ => none, none⟩) :=
  insert_oversize_aborts (fun _ => 0) 100 0
    ⟨⟨0, [(1, [5])]⟩, [5], fun _ => none, none⟩
    [⟨0, 5, 1, 0, 1, 5⟩] ⟨0, 9, 1, 0, 101, 9⟩ []
    (by decide) (by decide) (by decide)

theorem VInv_congr (k : PublicKey) (acc1 acc2 : List SignedAccountData)
    (s1 s2 : CacheSnapshot)
    (hacc : acceptedFor k acc1 = acceptedFor k acc2)
    (hdata : s1.data k = s2.data k) (h : VInv k acc2 s2) : VInv k acc1 s1 := by
  unfold VInv at h ⊢
  simp only [hdata, hacc]
  exact h

theorem try_insert_vinv_some (encLen : VersionedAccountData → Nat)
    (clock : Timestamp) (s : CacheSnapshot) (x v : SignedAccountData)
    (s' : CacheSnapshot) (k : PublicKey) (acc : List SignedAccountData)
    (h : try_insert encLen s clock x = (some v, s')) (hv : VInv k acc s) :
    VInv k (acc ++ [v]) s' := by
  cases hnew : is_new s x with
  | false =>
    rw [try_insert_of_not_new encLen s clock x hnew] at h
    have h1 := congrArg Prod.fst h
    simp at h1
  | true =>
    rw [try_insert_of_new encLen s clock x hnew] at h
    have h1 := congrArg Prod.fst h
    have h2 := congrArg Prod.snd h
    simp only [Option.some.injEq] at h1
    obtain rfl : v = overrideLocal encLen clock s.localData x := h1.symm
    obtain rfl : s' = { s with
      data := mapInsert s.data
                (overrideLocal encLen clock s.localData x).account_key
                (overrideLocal encLen clock s.localData x) } := h2.symm
    have hak := overrideLocal_account_key encLen clock s.localData x
    by_cases hk : k = x.account_key
    · have hdk : (mapInsert s.data
          (overrideLocal encLen clock s.localData x).account_key
          (overrideLocal encLen clock s.localData x)) k =
          some (overrideLocal encLen clock s.localData x) := by
        simp [mapInsert, hk, hak]
      have hfl : acceptedFor k (acc ++ [overrideLocal encLen clock s.localData x]) =
          acceptedFor k acc ++ [overrideLocal encLen clock s.localData x] := by
        simp [acceptedFor, List.filter_append, hak, hk]
      unfold VInv
      simp only [hdk, hfl]
      constructor
      · exact List.mem_append_right _ (List.mem_singleton.mpr rfl)
      · intro w hw
        rcases List.mem_append.mp hw with hw1 | hw2
        · rcases hsd : s.data k with _ | old
          · have hemp : acceptedFor k acc = [] := by
              have := hv
              unfold VInv at this
              simpa [hsd] using this
            rw [hemp] at hw1
            cases hw1
          · have hv' : old ∈ acceptedFor k acc ∧
                ∀ w' ∈ acceptedFor k acc, w'.version ≤ old.version := by
              have := hv
              unfold VInv at this
              simpa [hsd] using this
            have hwle := hv'.2 w hw1
            have hlt := is_new_version_lt s x old hnew (hk ▸ hsd)
            have hge := overrideLocal_version_ge encLen clock s.localData x
            omega
        · rw [List.mem_singleton.mp hw2]
    · have hdk : (mapInsert s.data
          (overrideLocal encLen clock s.localData x).account_key
          (overrideLocal encLen clock s.localData x)) k = s.data k := by
        simp [mapInsert, hak, hk]
      have hfl : acceptedFor k (acc ++ [overrideLocal encLen clock s.localData x]) =
          acceptedFor k acc := by
        have hnk : x.account_key ≠ k := fun he => hk he.symm
        simp [acceptedFor, List.filter_append, hak, hnk]
      exact VInv_congr k _ acc _ s hfl hdk hv

theorem try_insert_vinv_none (encLen : VersionedAccountData → Nat)
    (clock : Timestamp) (s : CacheSnapshot) (x : SignedAccountData)
    (s' : CacheSnapshot) (k : PublicKey) (acc : List SignedAccountData)
    (h : try_insert encLen s clock x = (none, s')) (hv : VInv k acc s) :
    VInv k acc s' := by
  cases hnew : is_new s x with
  | false =>
    rw [try_insert_of_not_new encLen s clock x hnew] at h
    have h2 := congrArg Prod.snd h
    simp only at h2
    rwa [← h2]
  | true =>
    rw [try_insert_of_new encLen s clock x hnew] at h
    have h1 := congrArg Prod.fst h
    simp at h1

theorem insertAll_vinv (encLen : VersionedAccountData → Nat)
    (clock : Timestamp) (ds : List SignedAccountData) (s : CacheSnapshot)
    (acc : List SignedAccountData) (k : PublicKey) (hv : VInv k acc s) :
    VInv k (acc ++ (insertAll encLen clock s ds).1)
      (insertAll encLen clock s ds).2 := by
  induction ds generalizing s acc with
  | nil => simpa [insertAll] using hv
  | cons x rest ih =>
    rcases hti : try_insert encLen s clock x with ⟨o, s'⟩
    cases o with
    | some v =>
      have h1 := try_insert_vinv_some encLen clock s x v s' k acc hti hv
      have hfst : (insertAll encLen clock s (x :: rest)).1 =
          v :: (insertAll encLen clock s' rest).1 := by
        simp [insertAll, hti]
      have hsnd : (insertAll encLen clock s (x :: rest)).2 =
          (insertAll encLen clock s' rest).2 := by
        simp [insertAll, hti]
      rw [hfst, hsnd,
        show acc ++ v :: (insertAll encLen clock s' rest).1 =
          (acc ++ [v]) ++ (insertAll encLen clock s' rest).1 by simp]
      exact ih s' (acc ++ [v]) h1
    | none =>
      have h1 := try_insert_vinv_none encLen clock s x s' k acc hti hv
      have hfst : (insertAll encLen clock s (x :: rest)).1 =
          (insertAll encLen clock s' rest).1 := by
        simp [insertAll, hti]
      have hsnd : (insertAll encLen clock s (x :: rest)).2 =
          (insertAll encLen clock s' rest).2 := by
        simp [insertAll, hti]
      rw [hfst, hsnd]
      exact ih s' acc h1

theorem runInsertBatches_cons_fst (encLen : VersionedAccountData → Nat)
    (maxSize : Nat) (s : CacheSnapshot) (clock : Timestamp)
    (ds : List SignedAccountData)
    (rest : List (Timestamp × List SignedAccountData)) :
    (runInsertBatches encLen maxSize s ((clock, ds) :: rest)).1 =
      (cacheInsert encLen maxSize clock s ds).1.1 ++
        (runInsertBatches encLen maxSize
          (cacheInsert encLen maxSize clock s ds).2 rest).1 := rfl

theorem runInsertBatches_cons_snd (encLen : VersionedAccountData → Nat)
    (maxSize : Nat) (s : CacheSnapshot) (clock : Timestamp)
    (ds : List SignedAccountData)
    (rest : List (Timestamp × List SignedAccountData)) :
    (runInsertBatches encLen maxSize s ((clock, ds) :: rest)).2 =
      (runInsertBatches encLen maxSize
        (cacheInsert encLen maxSize clock s ds).2 rest).2 := rfl

theorem runInsertBatches_vinv (encLen : VersionedAccountData → Nat)
    (maxSize : Nat) (batches : List (Timestamp × List SignedAccountData))
    (s : CacheSnapshot) (acc : List SignedAccountData) (k : PublicKey)
    (hv : VInv k acc s) :
    VInv k (acc ++ (runInsertBatches encLen maxSize s batches).1)
      (runInsertBatches encLen maxSize s batches).2 := by
  induction batches generalizing s acc with
  | nil => simpa [runInsertBatches] using hv
  | cons b rest ih =>
    obtain ⟨clock, ds⟩ := b
    have h1 := insertAll_vinv encLen clock (cacheVerify s maxSize ds).1 s acc k hv
    rw [← cacheInsert_inserted encLen maxSize clock s ds,
      ← cacheInsert_snd encLen maxSize clock s ds] at h1
    have h2 := ih (cacheInsert encLen maxSize clock s ds).2
      (acc ++ (cacheInsert encLen maxSize clock s ds).1.1) h1
    rw [runInsertBatches_cons_fst, runInsertBatches_cons_snd,
      ← List.append_assoc]
    exact h2

theorem applyOp_data_mono (encLen : VersionedAccountData → Nat)
    (maxSize : Nat) (s : CacheSnapshot) (op : CacheOp) (k : PublicKey)
    (d d' : SignedAccountData) (hd : s.data k = some d)
    (hd' : (applyOp encLen maxSize s op).data k = some d') :
    d.version ≤ d'.version := by
  cases op with
  | insertBatch clock ds =>
    obtain ⟨d1, hd1, hv1⟩ := insertAll_data_mono encLen clock
      (cacheVerify s maxSize ds).1 s k d hd
    have h2 : (insertAll encLen clock s (cacheVerify s maxSize ds).1).2.data k =
        some d' := hd'
    rw [hd1] at h2
    rw [← Option.some.inj h2]
    exact hv1
  | setLocalOp clock l =>
    obtain ⟨d1, hd1, hv1⟩ := set_local_data_mono encLen s clock l k d hd
    have h2 : (set_local encLen s clock l).2.data k = some d' := hd'
    rw [hd1] at h2
    rw [← Option.some.inj h2]
    exact hv1
  | setKeysOp ak =>
    have h2 := set_keys_data_eq s ak k d' hd'
    rw [hd] at h2
    rw [Option.some.inj h2]

/-- C6: across any sequence of cache operations (insert batches,
`set_local`, `set_keys`), the version stored under a key `k` in
successive published snapshots is monotonically non-decreasing — an entry
present before and after a step is never replaced by a strictly older
version; and across any sequence of `insert` batches starting from a
snapshot with no entry for `k`, the stored entry for `k` is one of the
records the cache accepted (returned for rebroadcast), of maximal
accepted version. -/
theorem accounts_version_monotone :
    (∀ (encLen : VersionedAccountData → Nat) (maxSize : Nat)
        (s : CacheSnapshot) (op : CacheOp) (k : PublicKey)
        (d d' : SignedAccountData),
      s.data k = some d → (applyOp encLen maxSize s op).data k = some d' →
      d.version ≤ d'.version)
    ∧ (∀ (encLen : VersionedAccountData → Nat) (maxSize : Nat)
        (s0 : CacheSnapshot)
        (batches : List (Timestamp × List SignedAccountData)) (k : PublicKey),
      s0.data k = none →
      ∀ v, (runInsertBatches encLen maxSize s0 batches).2.data k = some v →
        v ∈ acceptedFor k (runInsertBatches encLen maxSize s0 batches).1
        ∧ ∀ w ∈ acceptedFor k (runInsertBatches encLen maxSize s0 batches).1,
            w.version ≤ v.version) := by
  constructor
  · exact fun encLen maxSize s op k d d' hd hd' =>
      applyOp_data_mono encLen maxSize s op k d d' hd hd'
  · intro encLen maxSize s0 batches k hs0 v hvd
    have hv0 : VInv k [] s0 := by
      unfold VInv
      simp [hs0, acceptedFor]
    have h := runInsertBatches_vinv encLen maxSize batches s0 [] k hv0
    rw [List.nil_append] at h
    unfold VInv at h
    simpa [hvd] using h

theorem accounts_version_monotone_witness :
    (⟨0, 5, 2, 0, 1, 5⟩ : SignedAccountData) ∈
      acceptedFor 5 (runInsertBatches (fun _ => 0) 100
        ⟨⟨0, [(1, [5])]⟩, [5], fun _ => none, none⟩
        [(0, [⟨0, 5, 1, 0, 1, 5⟩]), (0, [⟨0, 5, 2, 0, 1, 5⟩])]).1
    ∧ ∀ w ∈ acceptedFor 5 (runInsertBatches (fun _ => 0) 100
        ⟨⟨0, [(1, [5])]⟩, [5], fun _ => none, none⟩
        [(0, [⟨0, 5, 1, 0, 1, 5⟩]), (0, [⟨0, 5, 2, 0, 1, 5⟩])]).1,
        w.version ≤ (⟨0, 5, 2, 0, 1, 5⟩ : SignedAccountData).version :=
  accounts_version_monotone.2 (fun _ => 0) 100
    ⟨⟨0, [(1, [5])]⟩, [5], fun _ => none, none⟩
    [(0, [⟨0, 5, 1, 0, 1, 5⟩]), (0, [⟨0, 5, 2, 0, 1, 5⟩])] 5 rfl
    ⟨0, 5, 2, 0, 1, 5⟩ (by decide)

end AccountsData

end NearCore
